import Mathlib

set_option autoImplicit false

/-
Verification of the sentinel-based doubly linked list of src/list/list.hpp.

The embedding is a small heap model: node addresses are natural numbers, the
heap maps every address to a `Header` (the `prev`/`next` links of
`ListNodeHeader`) and to a stored value (the `value` member of `ListNode`;
the cell attached to a sentinel is never read).  A `List` object is its
sentinel address (the inline `m_ptrs` member lives in the heap at that
address) together with its `m_size` member.  Each member function of the
C++ class is transcribed statement by statement as a heap transformer;
`delete` frees a node, which leaves its (now unreadable) bytes in place, so
it has no effect on the heap function.
-/

namespace CppList

/-- The two links of a `ListNodeHeader` in list.hpp; addresses are naturals. -/
structure Header where
  prev : Nat
  next : Nat
deriving DecidableEq, Repr

/-- The memory: the link structure and the stored values of all nodes.  A
`ListNode` is a header plus a value; a sentinel is a header whose value cell
is never read. -/
structure Heap where
  link : Nat → Header
  val : Nat → Int

/-- Writes a whole header (both links) at address `a`. -/
def Heap.setHdr (h : Heap) (a : Nat) (d : Header) : Heap :=
  Heap.mk (fun x => if x = a then d else h.link x) h.val

/-- Writes only the `next` field of the header at address `a`. -/
def Heap.setNext (h : Heap) (a n : Nat) : Heap :=
  Heap.mk (fun x => if x = a then Header.mk (h.link a).prev n else h.link x) h.val

/-- Writes only the `prev` field of the header at address `a`. -/
def Heap.setPrev (h : Heap) (a p : Nat) : Heap :=
  Heap.mk (fun x => if x = a then Header.mk p (h.link a).next else h.link x) h.val

/-- Writes the value cell at address `a`. -/
def Heap.setVal (h : Heap) (a : Nat) (v : Int) : Heap :=
  Heap.mk h.link (fun x => if x = a then v else h.val x)

@[simp] theorem link_setVal (h : Heap) (a : Nat) (v : Int) :
    (h.setVal a v).link = h.link := rfl

@[simp] theorem val_setHdr (h : Heap) (a : Nat) (d : Header) :
    (h.setHdr a d).val = h.val := rfl

@[simp] theorem val_setNext (h : Heap) (a n : Nat) :
    (h.setNext a n).val = h.val := rfl

@[simp] theorem val_setPrev (h : Heap) (a p : Nat) :
    (h.setPrev a p).val = h.val := rfl

@[simp] theorem val_setVal_self (h : Heap) (a : Nat) (v : Int) :
    (h.setVal a v).val a = v := by simp [Heap.setVal]

@[simp] theorem val_setVal_ne (h : Heap) (a : Nat) (v : Int) (x : Nat) (hx : x ≠ a) :
    (h.setVal a v).val x = h.val x := by simp [Heap.setVal, hx]

@[simp] theorem link_setHdr_self (h : Heap) (a : Nat) (d : Header) :
    (h.setHdr a d).link a = d := by simp [Heap.setHdr]

@[simp] theorem link_setHdr_ne (h : Heap) (a : Nat) (d : Header) (x : Nat) (hx : x ≠ a) :
    (h.setHdr a d).link x = h.link x := by simp [Heap.setHdr, hx]

@[simp] theorem link_setNext_self (h : Heap) (a n : Nat) :
    (h.setNext a n).link a = Header.mk (h.link a).prev n := by simp [Heap.setNext]

@[simp] theorem link_setNext_ne (h : Heap) (a n : Nat) (x : Nat) (hx : x ≠ a) :
    (h.setNext a n).link x = h.link x := by simp [Heap.setNext, hx]

@[simp] theorem link_setPrev_self (h : Heap) (a p : Nat) :
    (h.setPrev a p).link a = Header.mk p (h.link a).next := by simp [Heap.setPrev]

@[simp] theorem link_setPrev_ne (h : Heap) (a p : Nat) (x : Nat) (hx : x ≠ a) :
    (h.setPrev a p).link x = h.link x := by simp [Heap.setPrev, hx]

/-- A `setPrev` never changes any `next` field. -/
@[simp] theorem next_setPrev (h : Heap) (a p x : Nat) :
    ((h.setPrev a p).link x).next = (h.link x).next := by
  by_cases hx : x = a
  · subst hx; simp [Heap.setPrev]
  · simp [Heap.setPrev, hx]

/-- A `setNext` never changes any `prev` field. -/
@[simp] theorem prev_setNext (h : Heap) (a n x : Nat) :
    ((h.setNext a n).link x).prev = (h.link x).prev := by
  by_cases hx : x = a
  · subst hx; simp [Heap.setNext]
  · simp [Heap.setNext, hx]

/-- A `List` object: the address of its inline sentinel header `m_ptrs` and
its `m_size` member. -/
structure ListObj where
  sent : Nat
  size : Nat
deriving DecidableEq, Repr

/-- Result of a mutating member function: the new heap, the new state of the
list object, and the returned iterator (a node address). -/
structure MRes where
  heap : Heap
  obj : ListObj
  ret : Nat

/-- A doubly linked path: starting at `a`, the `next` links run through `xs`
and then reach `b`, and the corresponding `prev` links all point back.  The
whole ring of a list with sentinel `s` and elements `xs` is `chain h s xs s`. -/
def chain (h : Heap) : Nat → List Nat → Nat → Prop
  | a, [], b => (h.link a).next = b ∧ (h.link b).prev = a
  | a, x :: xs, b => (h.link a).next = x ∧ (h.link x).prev = a ∧ chain h x xs b

@[simp] theorem chain_nil (h : Heap) (a b : Nat) :
    chain h a [] b ↔ (h.link a).next = b ∧ (h.link b).prev = a := Iff.rfl

@[simp] theorem chain_cons (h : Heap) (a x b : Nat) (xs : List Nat) :
    chain h a (x :: xs) b ↔
      (h.link a).next = x ∧ (h.link x).prev = a ∧ chain h x xs b := Iff.rfl

/-- Invariants I1–I3 of the spec: the ring through the element addresses
`elems`, all ring addresses distinct, and `m_size` equal to the element
count. -/
def valid (h : Heap) (c : ListObj) (elems : List Nat) : Prop :=
  chain h c.sent elems c.sent ∧ (c.sent :: elems).Nodup ∧ c.size = elems.length

/-- Invariant I2 at one header: the neighbors of `x` point back at `x`. -/
def I2at (h : Heap) (x : Nat) : Prop :=
  (h.link (h.link x).next).prev = x ∧ (h.link (h.link x).prev).next = x

instance (h : Heap) (x : Nat) : Decidable (I2at h x) := by
  unfold I2at; infer_instance

/-- A chain only depends on the `next` fields of `a :: xs` and the `prev`
fields of `xs ++ [b]`. -/
theorem chain_congr (h h' : Heap) (a b : Nat) (xs : List Nat)
    (hnext : ∀ x ∈ a :: xs, (h'.link x).next = (h.link x).next)
    (hprev : ∀ x ∈ xs ++ [b], (h'.link x).prev = (h.link x).prev)
    (hc : chain h a xs b) : chain h' a xs b := by
  induction xs generalizing a with
  | nil =>
      refine ⟨?_, ?_⟩
      · rw [hnext a (by simp)]; exact hc.1
      · rw [hprev b (by simp)]; exact hc.2
  | cons x xs ih =>
      refine ⟨?_, ?_, ?_⟩
      · rw [hnext a (by simp)]; exact hc.1
      · rw [hprev x (by simp)]; exact hc.2.1
      · exact ih x (fun y hy => hnext y (by simp at hy ⊢; tauto))
          (fun y hy => hprev y (by simp at hy ⊢; tauto)) hc.2.2

/-- Two chains sharing an endpoint concatenate. -/
theorem chain_append (h : Heap) (a y b : Nat) (xs ys : List Nat)
    (h1 : chain h a xs y) (h2 : chain h y ys b) :
    chain h a (xs ++ y :: ys) b := by
  induction xs generalizing a with
  | nil =>
      cases ys with
      | nil => exact ⟨h1.1, h1.2, h2⟩
      | cons z zs => exact ⟨h1.1, h1.2, h2⟩
  | cons x xs ih => exact ⟨h1.1, h1.2.1, ih x h1.2.2⟩

/-- A chain splits at any interior node. -/
theorem chain_split (h : Heap) (a m b : Nat) (l r : List Nat)
    (hc : chain h a (l ++ m :: r) b) : chain h a l m ∧ chain h m r b := by
  induction l generalizing a with
  | nil => exact ⟨⟨hc.1, hc.2.1⟩, hc.2.2⟩
  | cons x xs ih =>
      obtain ⟨h1, h2⟩ := ih x hc.2.2
      exact ⟨⟨hc.1, hc.2.1, h1⟩, h2⟩

/-
Transcriptions of the member functions of `List<T>` (list.hpp).  Each
statement of the C++ body is mirrored in order; every pointer read happens
on the heap as it is at that moment of execution.
-/

/-- Transcribes List::insert(pos, value) with `nn` the address handed out by
`new`.  Source:
  new_node = new ListNode{ {.prev=pos->prev, .next=pos}, value };
  if (pos == &end_node()) { tail()->next = new_node; tail() = new_node; }
  else { if (pos->prev != &end_node()) { pos->prev->next = new_node; } }
  pos->prev = new_node;
  if (pos == head()) { head() = new_node; }
  ++m_size; return iterator{new_node};
with head() = m_ptrs.next and tail() = m_ptrs.prev. -/
def insert (h : Heap) (c : ListObj) (pos : Nat) (v : Int) (nn : Nat) : MRes :=
  let h1 := (h.setHdr nn (Header.mk (h.link pos).prev pos)).setVal nn v
  let h2 :=
    if pos = c.sent then
      (h1.setNext ((h1.link c.sent).prev) nn).setPrev c.sent nn
    else
      if (h1.link pos).prev ≠ c.sent then h1.setNext ((h1.link pos).prev) nn else h1
  let h3 := h2.setPrev pos nn
  let h4 := if pos = (h3.link c.sent).next then h3.setNext c.sent nn else h3
  MRes.mk h4 (ListObj.mk c.sent (c.size + 1)) nn

/-- The fallible entry point of List::insert: the `new` expression runs first
and may fail (std::bad_alloc).  `alloc` is the allocator's answer; on `none`
the exception propagates before any link has been touched, so the caller
keeps the original heap and object, and `none` as the returned iterator
signals the failure. -/
def insertTry (h : Heap) (c : ListObj) (pos : Nat) (v : Int) (alloc : Option Nat) :
    Heap × ListObj × Option Nat :=
  match alloc with
  | none => (h, c, none)
  | some nn => let r := insert h c pos v nn; (r.heap, r.obj, some r.ret)

/-- Transcribes List::erase(pos).  Source:
  after = pos->next;
  if (pos->prev != &end_node()) { pos->prev->next = pos->next; }
  else if (pos == head()) { head() = pos->next; }
  else { assert(false); }
  if (pos->next != &end_node()) { pos->next->prev = pos->prev; }
  else if (pos == tail()) { tail() = pos->prev; }
  else { assert(false); }
  delete pos; --m_size; return after;
The assert(false) arms are no-ops in release builds; `delete` frees the node
without altering any reachable link.  The precondition pos != end makes
m_size positive, so the size_t decrement is plain subtraction. -/
def erase (h : Heap) (c : ListObj) (pos : Nat) : MRes :=
  let after := (h.link pos).next
  let h1 :=
    if (h.link pos).prev ≠ c.sent then h.setNext ((h.link pos).prev) ((h.link pos).next)
    else if pos = (h.link c.sent).next then h.setNext c.sent ((h.link pos).next)
    else h
  let h2 :=
    if (h1.link pos).next ≠ c.sent then h1.setPrev ((h1.link pos).next) ((h1.link pos).prev)
    else if pos = (h1.link c.sent).prev then h1.setPrev c.sent ((h1.link pos).prev)
    else h1
  MRes.mk h2 (ListObj.mk c.sent (c.size - 1)) after

/-- Transcribes List::erase(first, last):
  for (auto it = first; it != last;) { it = erase(it); }
  return iterator{last.m_node};
`fuel` bounds the number of iterations (any value at least the range length
is exact). -/
def eraseRange : Nat → Heap → ListObj → Nat → Nat → Heap × ListObj × Nat
  | 0, h, c, _, last => (h, c, last)
  | fuel + 1, h, c, first, last =>
    if first = last then (h, c, last)
    else
      let r := erase h c first
      eraseRange fuel r.heap r.obj r.ret last

/-- Transcribes List::clear(): the loop deletes every element node (which
does not alter any reachable link), then m_ptrs = {&end_node(), &end_node()}
and m_size = 0. -/
def clear (h : Heap) (c : ListObj) : Heap × ListObj :=
  (h.setHdr c.sent (Header.mk c.sent c.sent), ListObj.mk c.sent 0)

/-- Transcribes List::swap(other).  Source:
  swap(m_ptrs, other.m_ptrs); swap(m_size, other.m_size);
  if (empty()) { m_ptrs = {.prev=&end_node(), .next=&end_node}; }
  else { tail()->next = &end_node(); }
  if (other.empty()) { other.m_ptrs = {...same...}; }
  else { other.tail()->next = &other.end_node(); }
Note: the empty arms write `&end_node` without the call parentheses, which is
ill-formed C++ (no caller in the repository ever instantiates swap, so the
template body is never compiled); they are modelled as the evident intent
`&end_node()`. -/
def swap (h : Heap) (a b : ListObj) : Heap × ListObj × ListObj :=
  let ha := h.link a.sent
  let hb := h.link b.sent
  let h1 := (h.setHdr a.sent hb).setHdr b.sent ha
  let a1 := ListObj.mk a.sent b.size
  let b1 := ListObj.mk b.sent a.size
  let h2 :=
    if a1.size = 0 then h1.setHdr a.sent (Header.mk a.sent a.sent)
    else h1.setNext ((h1.link a.sent).prev) a.sent
  let h3 :=
    if b1.size = 0 then h2.setHdr b.sent (Header.mk b.sent b.sent)
    else h2.setNext ((h2.link b.sent).prev) b.sent
  (h3, a1, b1)

/-- Transcribes List::List(List&& other) constructing a fresh object whose
m_ptrs lives at address `d`:
  m_ptrs{ other.empty() ? ListNodeHeader{&m_ptrs, &m_ptrs} : other.m_ptrs },
  m_size{other.m_size}
  { if (!other.empty()) { tail()->next = &end_node(); }
    other.m_ptrs = {&other.m_ptrs, &other.m_ptrs}; other.m_size = 0; } -/
def moveCtor (h : Heap) (src : ListObj) (d : Nat) : Heap × ListObj × ListObj :=
  let h1 :=
    if src.size = 0 then h.setHdr d (Header.mk d d)
    else h.setHdr d (h.link src.sent)
  let dst := ListObj.mk d src.size
  let h2 := if src.size ≠ 0 then h1.setNext ((h1.link d).prev) d else h1
  let h3 := h2.setHdr src.sent (Header.mk src.sent src.sent)
  (h3, dst, ListObj.mk src.sent 0)

/-- Transcribes List::operator=(List&& other) for distinct objects:
  clear();
  if (!other.empty()) { m_ptrs = other.m_ptrs; tail()->next = &end_node(); }
  m_size = other.m_size;
  other.m_ptrs = {&other.end_node(), &other.end_node()}; other.m_size = 0; -/
def moveAssign (h : Heap) (dst src : ListObj) : Heap × ListObj × ListObj :=
  let h1 := (clear h dst).1
  let h2 :=
    if src.size ≠ 0 then
      let h2a := h1.setHdr dst.sent (h1.link src.sent)
      h2a.setNext ((h2a.link dst.sent).prev) dst.sent
    else h1
  let dst2 := ListObj.mk dst.sent src.size
  let h3 := h2.setHdr src.sent (Header.mk src.sent src.sent)
  (h3, dst2, ListObj.mk src.sent 0)

/-- List::operator=(List&& other) when `other` aliases `*this`
(a = std::move(a)).  After the clear() the object is empty, so
`!other.empty()` reads the freshly zeroed m_size and the transfer arm is
skipped; then m_size = other.m_size keeps 0 and the sentinel is re-linked to
itself. -/
def moveAssignSelf (h : Heap) (c : ListObj) : Heap × ListObj :=
  let h1 := (clear h c).1
  let c1 := (clear h c).2
  let h2 :=
    if c1.size ≠ 0 then
      let h2a := h1.setHdr c.sent (h1.link c.sent)
      h2a.setNext ((h2a.link c.sent).prev) c.sent
    else h1
  let c2 := ListObj.mk c.sent c1.size
  let h3 := h2.setHdr c.sent (Header.mk c.sent c.sent)
  (h3, ListObj.mk c2.sent 0)

/-- The copy loop of List::operator=(const List& other) when `other` aliases
`*this`: iterates `other` from begin() to end(), push_back-ing each value
(an insert at the sentinel, consuming one fresh address from `allocs`);
the range-for increments the iterator after each body, reading the heap the
push_back produced. -/
def copyLoopSelf : Nat → List Nat → Heap → ListObj → Nat → Heap × ListObj
  | 0, _, h, c, _ => (h, c)
  | fuel + 1, allocs, h, c, cur =>
    if cur = c.sent then (h, c)
    else
      match allocs with
      | [] => (h, c)
      | nn :: rest =>
        let r := insert h c c.sent (h.val cur) nn
        copyLoopSelf fuel rest r.heap r.obj ((r.heap.link cur).next)

/-- List::operator=(const List& other) when `other` aliases `*this` (a = a):
  clear();
  for (const T& value : other) { push_back(value); }
The loop traverses the object that was just cleared. -/
def copyAssignSelf (h : Heap) (c : ListObj) (allocs : List Nat) (fuel : Nat) :
    Heap × ListObj :=
  let h1 := (clear h c).1
  let c1 := (clear h c).2
  copyLoopSelf fuel allocs h1 c1 ((h1.link c1.sent).next)

/-- The comparison loop of operator==(a, b): while a's iterator has not
reached a's end, compare the two referenced values and step both iterators.
`fuel` bounds the iterations (a.size is exact on valid lists). -/
def eqLoop (h : Heap) (aEnd : Nat) : Nat → Nat → Nat → Bool
  | 0, aCur, _ => decide (aCur = aEnd)
  | fuel + 1, aCur, bCur =>
    if aCur = aEnd then true
    else if h.val aCur = h.val bCur then
      eqLoop h aEnd fuel ((h.link aCur).next) ((h.link bCur).next)
    else false

/-- Transcribes operator==(const List& a, const List& b):
  if (a.size() != b.size()) return false;
  for (a_it = a.begin(), b_it = b.begin(); a_it != a.end(); ++a_it, ++b_it)
    if (*a_it != *b_it) return false;
  return true; -/
def listEq (h : Heap) (a b : ListObj) : Bool :=
  if a.size ≠ b.size then false
  else eqLoop h a.sent a.size ((h.link a.sent).next) ((h.link b.sent).next)

/-- Forward traversal: the node addresses visited by repeated operator++
starting at `cur`, stopping on reaching `stop` (exclusive). -/
def fwdA (h : Heap) : Nat → Nat → Nat → List Nat
  | 0, _, _ => []
  | fuel + 1, cur, stop =>
    if cur = stop then [] else cur :: fwdA h fuel ((h.link cur).next) stop

/-- Backward traversal: the node addresses visited by repeated operator--
starting at `cur`, stopping on reaching `stop` (exclusive). -/
def bwdA (h : Heap) : Nat → Nat → Nat → List Nat
  | 0, _, _ => []
  | fuel + 1, cur, stop =>
    if cur = stop then [] else cur :: bwdA h fuel ((h.link cur).prev) stop

/-- Values seen by the forward iteration from begin() to end(). -/
def fwdVals (h : Heap) (c : ListObj) : List Int :=
  (fwdA h c.size ((h.link c.sent).next) c.sent).map h.val

/-- Values seen starting from --end() and following prev down to begin()
inclusive (i.e. until the sentinel is reached). -/
def bwdVals (h : Heap) (c : ListObj) : List Int :=
  (bwdA h c.size ((h.link c.sent).prev) c.sent).map h.val

/-- The address list of a ring after splicing `nn` in immediately before
`pos`: inserts `nn` before the occurrence of `pos`, or appends it when `pos`
does not occur (the pos = sentinel case, i.e. insertion at end()). -/
def insBefore (nn pos : Nat) : List Nat → List Nat
  | [] => [nn]
  | x :: xs => if x = pos then nn :: x :: xs else x :: insBefore nn pos xs

theorem insBefore_of_not_mem (nn pos : Nat) (xs : List Nat) (hp : pos ∉ xs) :
    insBefore nn pos xs = xs ++ [nn] := by
  induction xs with
  | nil => rfl
  | cons x xs ih =>
      simp only [List.mem_cons, not_or] at hp
      simp [insBefore, Ne.symm hp.1, ih hp.2]

theorem insBefore_append (nn pos : Nat) (l r : List Nat) (hp : pos ∉ l) :
    insBefore nn pos (l ++ pos :: r) = l ++ nn :: pos :: r := by
  induction l with
  | nil => simp [insBefore]
  | cons x xs ih =>
      simp only [List.mem_cons, not_or] at hp
      simp [insBefore, Ne.symm hp.1, ih hp.2]

/-- Elementary distinctness facts of a ring split at an element `pos`. -/
theorem split_ring_facts (s pos : Nat) (l r : List Nat)
    (hnd : (s :: (l ++ pos :: r)).Nodup) :
    pos ≠ s ∧ pos ∉ l ∧ pos ∉ r ∧ s ∉ l ∧ s ∉ r ∧ (∀ x ∈ l, x ∉ r) := by
  simp only [List.nodup_cons, List.mem_append, List.mem_cons, not_or,
    List.nodup_append, List.disjoint_left] at hnd
  obtain ⟨⟨hsl, hsp, hsr⟩, hl, ⟨hpr, hr⟩, hdisj⟩ := hnd
  refine ⟨fun hh => hsp hh.symm, ?_, hpr, hsl, hsr, ?_⟩
  · intro hmem
    exact (hdisj hmem).1 rfl
  · intro x hx hxr
    exact (hdisj hx).2 hxr

/-- Elementary distinctness facts of a ring whose last element is `q`. -/
theorem concat_ring_facts (s q : Nat) (e : List Nat)
    (hnd : (s :: (e ++ [q])).Nodup) :
    q ≠ s ∧ q ∉ e ∧ s ∉ e := by
  have hx := split_ring_facts s q e [] hnd
  exact ⟨hx.1, hx.2.1, hx.2.2.2.1⟩

/-- The ring stays duplicate-free after splicing in a fresh address. -/
theorem nodup_insBefore (s pos nn : Nat) (elems : List Nat)
    (hnd : (s :: elems).Nodup) (hpos : pos ∈ s :: elems) (hnn : nn ∉ s :: elems) :
    (s :: insBefore nn pos elems).Nodup := by
  rcases List.mem_cons.mp hpos with hps | hpe
  · subst hps
    have hse : pos ∉ elems := (List.nodup_cons.mp hnd).1
    rw [insBefore_of_not_mem nn pos elems hse]
    have : pos :: (elems ++ [nn]) = (pos :: elems) ++ [nn] := rfl
    rw [this, List.nodup_append]
    refine ⟨hnd, List.nodup_singleton nn, ?_⟩
    intro x hx
    simp only [List.mem_singleton]
    intro hxe; subst hxe; exact hnn hx
  · obtain ⟨l, r, rfl⟩ := List.append_of_mem hpe
    have hpl : pos ∉ l := (split_ring_facts s pos l r hnd).2.1
    rw [insBefore_append nn pos l r hpl]
    have : s :: (l ++ nn :: pos :: r) = (s :: l) ++ nn :: (pos :: r) := rfl
    rw [this]
    exact List.nodup_middle.mpr (List.nodup_cons.mpr ⟨hnn, hnd⟩)

/-- Core chain lemma for insert: if the heap `H` differs from `h` exactly by
the three-pointer splice of a fresh node `nn` before `pos` (new node linked
as ⟨prev-of-pos, pos⟩, old predecessor's next re-pointed to `nn`, pos's prev
re-pointed to `nn`), then the ring through `insBefore nn pos elems` holds
in `H`. -/
theorem ring_insert (h H : Heap) (s pos nn : Nat) (elems : List Nat)
    (hc : chain h s elems s) (hnd : (s :: elems).Nodup)
    (hpos : pos ∈ s :: elems) (hnn : nn ∉ s :: elems)
    (hA : ∀ x, x ≠ nn → x ≠ (h.link pos).prev → (H.link x).next = (h.link x).next)
    (hB : ∀ x, x ≠ nn → x ≠ pos → (H.link x).prev = (h.link x).prev)
    (hC : (H.link (h.link pos).prev).next = nn)
    (hD : (H.link pos).prev = nn)
    (hE : H.link nn = Header.mk (h.link pos).prev pos) :
    chain H s (insBefore nn pos elems) s := by
  have hnns : nn ≠ s := fun hh => hnn (by rw [hh]; exact List.mem_cons_self s elems)
  have hnne : nn ∉ elems := fun hh => hnn (List.mem_cons_of_mem s hh)
  have hse : s ∉ elems := (List.nodup_cons.mp hnd).1
  rcases List.mem_cons.mp hpos with hps | hpe
  · -- insertion at end(): pos is the sentinel
    subst hps
    rw [insBefore_of_not_mem nn pos elems hse]
    rcases List.eq_nil_or_concat' elems with rfl | ⟨e, q, rfl⟩
    · -- empty list
      have hprev : (h.link pos).prev = pos := hc.2
      rw [hprev] at hC hE
      exact ⟨hC, by rw [hE], by rw [hE], hD⟩
    · -- non-empty: old tail is q
      obtain ⟨hq, hqe, hte⟩ := concat_ring_facts pos q e hnd
      obtain ⟨hc1, hc2⟩ := chain_split h pos q pos e [] hc
      have hprev : (h.link pos).prev = q := hc2.2
      rw [hprev] at hC hE
      have hgoal : (e ++ [q]) ++ [nn] = e ++ q :: [nn] := by simp
      rw [hgoal]
      apply chain_append H pos q pos e [nn]
      · apply chain_congr h H pos q e _ _ hc1
        · intro x hx
          have hxnn : x ≠ nn := by
            rcases List.mem_cons.mp hx with rfl | hxe
            · exact hnns.symm
            · exact fun hh => hnne (by rw [← hh]; exact List.mem_append_left [q] hxe)
          refine hA x hxnn ?_
          rw [hprev]
          rcases List.mem_cons.mp hx with rfl | hxe
          · exact Ne.symm hq
          · exact fun hh => hqe (by rw [← hh]; exact hxe)
        · intro x hx
          rcases List.mem_append.mp hx with hxe | hxq
          · exact hB x (fun hh => hnne (by rw [← hh]; exact List.mem_append_left [q] hxe))
              (fun hh => hte (by rw [← hh]; exact hxe))
          · have hxq' : x = q := List.mem_singleton.mp hxq
            subst hxq'
            exact hB x (fun hh => hnne (by rw [← hh]; exact hx)) hq
      · exact ⟨hC, by rw [hE], by rw [hE], hD⟩
  · -- insertion before an element pos
    obtain ⟨l, r, rfl⟩ := List.append_of_mem hpe
    obtain ⟨hps, hpl, hpr, hsl, hsr, hlr⟩ := split_ring_facts s pos l r hnd
    rw [insBefore_append nn pos l r hpl]
    have hnnl : nn ∉ l := fun hh => hnne (List.mem_append_left _ hh)
    have hnnr : nn ∉ r := fun hh => hnne (List.mem_append_right _ (List.mem_cons_of_mem pos hh))
    have hnnp : nn ≠ pos :=
      fun hh => hnne (by rw [hh]; exact List.mem_append_right l (List.mem_cons_self pos r))
    rcases List.eq_nil_or_concat' l with rfl | ⟨l', q, rfl⟩
    · -- pos is the head
      have hpp : (h.link pos).prev = s := hc.2.1
      have hcr : chain h pos r s := hc.2.2
      rw [hpp] at hC hE
      refine ⟨hC, by rw [hE], by rw [hE], hD, ?_⟩
      apply chain_congr h H pos s r _ _ hcr
      · intro x hx
        have hxs : x ≠ s := by
          rcases List.mem_cons.mp hx with rfl | hxr
          · exact hps
          · exact fun hh => hsr (by rw [← hh]; exact hxr)
        have hxnn : x ≠ nn := by
          rcases List.mem_cons.mp hx with rfl | hxr
          · exact hnnp.symm
          · exact fun hh => hnnr (by rw [← hh]; exact hxr)
        refine hA x hxnn (fun hh => hxs (hh.trans hpp))
      · intro x hx
        rcases List.mem_append.mp hx with hxr | hxs
        · exact hB x (fun hh => hnnr (by rw [← hh]; exact hxr))
            (fun hh => hpr (by rw [← hh]; exact hxr))
        · have hxs' : x = s := List.mem_singleton.mp hxs
          subst hxs'
          exact hB x hnns.symm (Ne.symm hps)
    · -- pos has a predecessor element q
      have hq_mem : q ∈ l' ++ [q] := List.mem_append_right l' (List.mem_singleton_self q)
      have hql : pos ≠ q := fun hh => hpl (by rw [hh]; exact hq_mem)
      have hqs : q ≠ s := fun hh => hsl (by rw [← hh]; exact hq_mem)
      have hnd2 : (l' ++ [q]).Nodup := (List.nodup_append.mp (List.nodup_cons.mp hnd).2).1
      have hql' : q ∉ l' := by
        have hd := (List.nodup_append.mp hnd2).2.2
        intro hh
        exact (List.disjoint_left.mp hd) hh (List.mem_singleton_self q)
      have hcast : (l' ++ [q]) ++ pos :: r = l' ++ q :: (pos :: r) := by simp
      rw [hcast] at hc
      obtain ⟨hc1, hc2⟩ := chain_split h s q s l' (pos :: r) hc
      have hpp : (h.link pos).prev = q := hc2.2.1
      have hcr : chain h pos r s := hc2.2.2
      rw [hpp] at hC hE
      have hgoal : (l' ++ [q]) ++ nn :: pos :: r = l' ++ q :: (nn :: pos :: r) := by simp
      rw [hgoal]
      apply chain_append H s q s l' (nn :: pos :: r)
      · apply chain_congr h H s q l' _ _ hc1
        · intro x hx
          have hxq : x ≠ q := by
            rcases List.mem_cons.mp hx with rfl | hxl
            · exact Ne.symm hqs
            · exact fun hh => hql' (by rw [← hh]; exact hxl)
          have hxnn : x ≠ nn := by
            rcases List.mem_cons.mp hx with rfl | hxl
            · exact hnns.symm
            · exact fun hh => hnnl (by rw [← hh]; exact List.mem_append_left [q] hxl)
          exact hA x hxnn (fun hh => hxq (hh.trans hpp))
        · intro x hx
          rcases List.mem_append.mp hx with hxl | hxq
          · exact hB x (fun hh => hnnl (by rw [← hh]; exact List.mem_append_left [q] hxl))
              (fun hh => hpl (by rw [← hh]; exact List.mem_append_left [q] hxl))
          · have hxq' : x = q := List.mem_singleton.mp hxq
            subst hxq'
            exact hB x (fun hh => hnnl (by rw [← hh]; exact hq_mem)) (Ne.symm hql)
      · refine ⟨hC, by rw [hE], by rw [hE], hD, ?_⟩
        apply chain_congr h H pos s r _ _ hcr
        · intro x hx
          have hxq : x ≠ q := by
            rcases List.mem_cons.mp hx with rfl | hxr
            · exact hql
            · intro hh
              exact hlr q hq_mem (by rw [← hh]; exact hxr)
          have hxnn : x ≠ nn := by
            rcases List.mem_cons.mp hx with rfl | hxr
            · exact hnnp.symm
            · exact fun hh => hnnr (by rw [← hh]; exact hxr)
          exact hA x hxnn (fun hh => hxq (hh.trans hpp))
        · intro x hx
          rcases List.mem_append.mp hx with hxr | hxs
          · exact hB x (fun hh => hnnr (by rw [← hh]; exact hxr))
              (fun hh => hpr (by rw [← hh]; exact hxr))
          · have hxs' : x = s := List.mem_singleton.mp hxs
            subst hxs'
            exact hB x hnns.symm (Ne.symm hps)

/-- Footprint of List::insert on the heap: whichever branch runs, exactly
three pointers change (the fresh node's header is written, the old
predecessor of `pos` gets `next = nn`, `pos` gets `prev = nn`), plus the
fresh node's value cell. -/
theorem insert_reads (h : Heap) (c : ListObj) (elems : List Nat) (pos : Nat) (v : Int) (nn : Nat)
    (hc : chain h c.sent elems c.sent) (hnd : (c.sent :: elems).Nodup)
    (hpos : pos ∈ c.sent :: elems) (hnn : nn ∉ c.sent :: elems) :
    (∀ x, x ≠ nn → x ≠ (h.link pos).prev →
      ((insert h c pos v nn).heap.link x).next = (h.link x).next) ∧
    (∀ x, x ≠ nn → x ≠ pos →
      ((insert h c pos v nn).heap.link x).prev = (h.link x).prev) ∧
    (((insert h c pos v nn).heap.link ((h.link pos).prev)).next = nn) ∧
    (((insert h c pos v nn).heap.link pos).prev = nn) ∧
    ((insert h c pos v nn).heap.link nn = Header.mk (h.link pos).prev pos) ∧
    ((insert h c pos v nn).heap.val nn = v) ∧
    (∀ x, x ≠ nn → (insert h c pos v nn).heap.val x = h.val x) := by
  have hnns : nn ≠ c.sent := fun hh => hnn (by rw [hh]; exact List.mem_cons_self _ _)
  have hcs : c.sent ≠ nn := Ne.symm hnns
  have hse : c.sent ∉ elems := (List.nodup_cons.mp hnd).1
  rcases List.mem_cons.mp hpos with hps | hpe
  · -- insertion at end(): pos is the sentinel
    subst hps
    rcases List.eq_nil_or_concat' elems with rfl | ⟨e, q, rfl⟩
    · -- empty list: the old tail is the sentinel itself
      have f1 : (h.link c.sent).prev = c.sent := hc.2
      refine ⟨?_, ?_, ?_, ?_, ?_, ?_, ?_⟩
      · intro x hx1 hx2
        rw [f1] at hx2
        simp [insert, f1, hcs, hx1, hx2]
      · intro x hx1 hx2
        simp [insert, f1, hcs, hx1, hx2]
      · rw [f1]
        simp [insert, f1, hcs]
      · simp [insert, f1, hcs]
      · simp [insert, f1, hcs, hnns]
      · simp [insert, f1, hcs]
      · intro x hx1
        simp [insert, f1, hcs, hx1]
    · -- non-empty list: the old tail is q
      obtain ⟨hqs, hqe, hte⟩ := concat_ring_facts c.sent q e hnd
      obtain ⟨hc1, hc2⟩ := chain_split h c.sent q c.sent e [] hc
      have f1 : (h.link c.sent).prev = q := hc2.2
      have hsq : c.sent ≠ q := Ne.symm hqs
      have hnnq : nn ≠ q :=
        fun hh => hnn (by rw [hh]; exact List.mem_cons_of_mem _ (List.mem_append_right e (List.mem_singleton_self q)))
      have hhead : (h.link c.sent).next ∈ e ++ [q] := by
        rcases e with _ | ⟨x, e'⟩
        · rw [hc.1]; exact List.mem_append_right [] (List.mem_singleton_self q)
        · rw [hc.1]; exact List.mem_append_left [q] (List.mem_cons_self x e')
      have f2 : ¬(c.sent = (h.link c.sent).next) :=
        fun hh => hse (by rw [hh]; exact hhead)
      refine ⟨?_, ?_, ?_, ?_, ?_, ?_, ?_⟩
      · intro x hx1 hx2
        rw [f1] at hx2
        simp [insert, f1, f2, hcs, hsq, hx1, hx2]
      · intro x hx1 hx2
        simp [insert, f1, f2, hcs, hsq, hx1, hx2]
      · rw [f1]
        simp [insert, f1, f2, hcs, hsq]
      · simp [insert, f1, f2, hcs, hsq]
      · simp [insert, f1, f2, hcs, hsq, hnns, hnnq]
      · simp [insert, f1, f2, hcs, hsq]
      · intro x hx1
        simp [insert, f1, f2, hcs, hsq, hx1]
  · -- insertion before an element pos
    obtain ⟨l, r, rfl⟩ := List.append_of_mem hpe
    obtain ⟨hps, hpl, hpr, hsl, hsr, hlr⟩ := split_ring_facts c.sent pos l r hnd
    have hpnn : pos ≠ nn :=
      fun hh => hnn (by rw [← hh]; exact List.mem_cons_of_mem _ (List.mem_append_right l (List.mem_cons_self pos r)))
    rcases List.eq_nil_or_concat' l with rfl | ⟨l', q, rfl⟩
    · -- pos is the head: its predecessor is the sentinel
      have hpp : (h.link pos).prev = c.sent := hc.2.1
      have hhead : (h.link c.sent).next = pos := hc.1
      refine ⟨?_, ?_, ?_, ?_, ?_, ?_, ?_⟩
      · intro x hx1 hx2
        rw [hpp] at hx2
        simp [insert, hpp, hhead, hps, hpnn, hcs, hx1, hx2]
      · intro x hx1 hx2
        simp [insert, hpp, hhead, hps, hpnn, hcs, hx1, hx2]
      · rw [hpp]
        simp [insert, hpp, hhead, hps, hpnn, hcs]
      · simp [insert, hpp, hhead, hps, hpnn, hcs]
      · simp [insert, hpp, hhead, hps, hpnn, Ne.symm hpnn, hcs, hnns]
      · simp [insert, hpp, hhead, hps, hpnn, hcs]
      · intro x hx1
        simp [insert, hpp, hhead, hps, hpnn, hcs, hx1]
    · -- pos has an element predecessor q
      have hq_mem : q ∈ l' ++ [q] := List.mem_append_right l' (List.mem_singleton_self q)
      have hcast : (l' ++ [q]) ++ pos :: r = l' ++ q :: (pos :: r) := by simp
      rw [hcast] at hc
      obtain ⟨hc1, hc2⟩ := chain_split h c.sent q c.sent l' (pos :: r) hc
      have hpp : (h.link pos).prev = q := hc2.2.1
      have hqs : q ≠ c.sent := fun hh => hsl (by rw [← hh]; exact hq_mem)
      have hnnq : nn ≠ q :=
        fun hh => hnn (by rw [hh]; exact List.mem_cons_of_mem _ (List.mem_append_left (pos :: r) hq_mem))
      have hql : pos ≠ q := fun hh => hpl (by rw [hh]; exact hq_mem)
      have hhead : (h.link c.sent).next ∈ l' ++ [q] := by
        rcases l' with _ | ⟨x, l''⟩
        · rw [hc.1]; exact List.mem_append_right [] (List.mem_singleton_self q)
        · rw [hc.1]; exact List.mem_append_left [q] (List.mem_cons_self x l'')
      have f4 : ¬(pos = (h.link c.sent).next) :=
        fun hh => hpl (by rw [hh]; exact hhead)
      have hsq : c.sent ≠ q := Ne.symm hqs
      refine ⟨?_, ?_, ?_, ?_, ?_, ?_, ?_⟩
      · intro x hx1 hx2
        rw [hpp] at hx2
        simp [insert, hpp, hps, hpnn, hqs, hsq, hcs, f4, hx1, hx2]
      · intro x hx1 hx2
        simp [insert, hpp, hps, hpnn, hqs, hsq, hcs, f4, hx1, hx2]
      · rw [hpp]
        simp [insert, hpp, hps, hpnn, hqs, hsq, hcs, f4]
      · simp [insert, hpp, hps, hpnn, hqs, hsq, hcs, f4]
      · simp [insert, hpp, hps, hpnn, Ne.symm hpnn, hqs, hsq, hcs, f4, hnns, hnnq]
      · simp [insert, hpp, hps, hpnn, hqs, hsq, hcs, f4]
      · intro x hx1
        simp [insert, hpp, hps, hpnn, hqs, hsq, hcs, f4, hx1]

theorem length_insBefore (nn pos : Nat) (xs : List Nat) :
    (insBefore nn pos xs).length = xs.length + 1 := by
  induction xs with
  | nil => rfl
  | cons x xs ih => by_cases hx : x = pos <;> simp [insBefore, hx, ih]

/-- List::insert preserves the invariants I1–I3: the resulting state is the
ring with `nn` spliced in immediately before `pos`. -/
theorem insert_valid (h : Heap) (c : ListObj) (elems : List Nat) (pos : Nat) (v : Int) (nn : Nat)
    (hv : valid h c elems) (hpos : pos ∈ c.sent :: elems) (hnn : nn ∉ c.sent :: elems) :
    valid (insert h c pos v nn).heap (insert h c pos v nn).obj (insBefore nn pos elems) := by
  obtain ⟨hc, hnd, hsz⟩ := hv
  obtain ⟨hA, hB, hC, hD, hE, _, _⟩ := insert_reads h c elems pos v nn hc hnd hpos hnn
  refine ⟨?_, ?_, ?_⟩
  · exact ring_insert h (insert h c pos v nn).heap c.sent pos nn elems hc hnd hpos hnn
      hA hB hC hD hE
  · exact nodup_insBefore c.sent pos nn elems hnd hpos hnn
  · have hsz' : (insert h c pos v nn).obj.size = c.size + 1 := rfl
    rw [hsz', hsz, length_insBefore]

/-- Whichever branches of List::erase run on a valid ring, the heap effect
is exactly the two-pointer unlink: the predecessor's `next` is re-pointed to
the successor and the successor's `prev` to the predecessor. -/
theorem erase_heap_eq (h : Heap) (c : ListObj) (l r : List Nat) (pos : Nat)
    (hc : chain h c.sent (l ++ pos :: r) c.sent) (hnd : (c.sent :: (l ++ pos :: r)).Nodup) :
    (erase h c pos).heap =
      (h.setNext ((h.link pos).prev) ((h.link pos).next)).setPrev
        ((h.link pos).next) ((h.link pos).prev) := by
  obtain ⟨hps, hpl, hpr, hsl, hsr, hlr⟩ := split_ring_facts c.sent pos l r hnd
  obtain ⟨hcl, hcr⟩ := chain_split h c.sent pos c.sent l r hc
  rcases List.eq_nil_or_concat' l with rfl | ⟨l', q, rfl⟩
  · -- pos is the head: its predecessor is the sentinel
    have hpp : (h.link pos).prev = c.sent := hcl.2
    have hhead : (h.link c.sent).next = pos := hcl.1
    rcases r with _ | ⟨y, r'⟩
    · have hnx : (h.link pos).next = c.sent := hcr.1
      have hlast : (h.link c.sent).prev = pos := hcr.2
      simp [erase, hpp, hnx, hhead, hlast, hps]
    · have hnx : (h.link pos).next = y := hcr.1
      have hys : y ≠ c.sent := fun hh => hsr (by rw [← hh]; exact List.mem_cons_self y r')
      simp [erase, hpp, hnx, hhead, hps, hys]
  · -- pos has an element predecessor q
    have hq_mem : q ∈ l' ++ [q] := List.mem_append_right l' (List.mem_singleton_self q)
    have hqs : q ≠ c.sent := fun hh => hsl (by rw [← hh]; exact hq_mem)
    obtain ⟨hcl1, hcl2⟩ := chain_split h c.sent q pos l' [] hcl
    have hpp : (h.link pos).prev = q := hcl2.2
    have hqp : pos ≠ q := fun hh => hpl (by rw [hh]; exact hq_mem)
    rcases r with _ | ⟨y, r'⟩
    · have hnx : (h.link pos).next = c.sent := hcr.1
      have hlast : (h.link c.sent).prev = pos := hcr.2
      simp [erase, hpp, hnx, hlast, hps, hqs, hqp]
    · have hnx : (h.link pos).next = y := hcr.1
      have hys : y ≠ c.sent := fun hh => hsr (by rw [← hh]; exact List.mem_cons_self y r')
      simp [erase, hpp, hnx, hps, hqs, hqp, hys]

/-- Core chain lemma for erase: if `H` differs from `h` exactly by the
two-pointer unlink of `pos`, the ring through the remaining elements holds. -/
theorem ring_erase (h H : Heap) (s pos : Nat) (l r : List Nat)
    (hc : chain h s (l ++ pos :: r) s) (hnd : (s :: (l ++ pos :: r)).Nodup)
    (hA : ∀ x, x ≠ (h.link pos).prev → (H.link x).next = (h.link x).next)
    (hB : ∀ x, x ≠ (h.link pos).next → (H.link x).prev = (h.link x).prev)
    (hC : (H.link (h.link pos).prev).next = (h.link pos).next)
    (hD : (H.link (h.link pos).next).prev = (h.link pos).prev) :
    chain H s (l ++ r) s := by
  obtain ⟨hps, hpl, hpr, hsl, hsr, hlr⟩ := split_ring_facts s pos l r hnd
  obtain ⟨hcl, hcr⟩ := chain_split h s pos s l r hc
  rcases List.eq_nil_or_concat' l with rfl | ⟨l', q, rfl⟩
  · have hpp : (h.link pos).prev = s := hcl.2
    rcases r with _ | ⟨y, r'⟩
    · have hnx : (h.link pos).next = s := hcr.1
      rw [hpp, hnx] at hC hD
      exact ⟨hC, hD⟩
    · have hnx : (h.link pos).next = y := hcr.1
      have hys : y ≠ s := fun hh => hsr (by rw [← hh]; exact List.mem_cons_self y r')
      have hnd1 : (pos :: y :: r').Nodup := (List.nodup_cons.mp hnd).2
      have hyr : y ∉ r' := (List.nodup_cons.mp (List.nodup_cons.mp hnd1).2).1
      rw [hpp, hnx] at hC hD
      refine ⟨hC, hD, ?_⟩
      apply chain_congr h H y s r' _ _ hcr.2.2
      · intro x hx
        refine hA x ?_
        rw [hpp]
        rcases List.mem_cons.mp hx with rfl | hxr
        · exact hys
        · exact fun hh => hsr (by rw [← hh]; exact List.mem_cons_of_mem y hxr)
      · intro x hx
        refine hB x ?_
        rw [hnx]
        rcases List.mem_append.mp hx with hxr | hxs
        · exact fun hh => hyr (by rw [← hh]; exact hxr)
        · have hxs' : x = s := List.mem_singleton.mp hxs
          subst hxs'
          exact Ne.symm hys
  · have hq_mem : q ∈ l' ++ [q] := List.mem_append_right l' (List.mem_singleton_self q)
    have hqs : q ≠ s := fun hh => hsl (by rw [← hh]; exact hq_mem)
    have hnd2 : (l' ++ [q]).Nodup := (List.nodup_append.mp (List.nodup_cons.mp hnd).2).1
    have hql' : q ∉ l' := by
      have hd := (List.nodup_append.mp hnd2).2.2
      intro hh
      exact (List.disjoint_left.mp hd) hh (List.mem_singleton_self q)
    obtain ⟨hcl1, hcl2⟩ := chain_split h s q pos l' [] hcl
    have hpp : (h.link pos).prev = q := hcl2.2
    have hnxl : ∀ x ∈ l' ++ [q], x ≠ (h.link pos).next := by
      intro x hx
      rcases r with _ | ⟨y, r'⟩
      · rw [hcr.1]
        rcases List.mem_append.mp hx with hxl | hxq
        · exact fun hh => hsl (by rw [← hh]; exact List.mem_append_left [q] hxl)
        · exact fun hh => hsl (by rw [← hh]; exact hx)
      · rw [hcr.1]
        intro hh
        exact hlr x hx (by rw [hh]; exact List.mem_cons_self y r')
    have hchainl : chain H s l' q := by
      apply chain_congr h H s q l' _ _ hcl1
      · intro x hx
        refine hA x ?_
        rw [hpp]
        rcases List.mem_cons.mp hx with rfl | hxl
        · exact Ne.symm hqs
        · exact fun hh => hql' (by rw [← hh]; exact hxl)
      · intro x hx
        exact hB x (hnxl x hx)
    rcases r with _ | ⟨y, r'⟩
    · have hnx : (h.link pos).next = s := hcr.1
      rw [hpp, hnx] at hC hD
      have hgoal : (l' ++ [q]) ++ ([] : List Nat) = l' ++ q :: [] := by simp
      rw [hgoal]
      exact chain_append H s q s l' [] hchainl ⟨hC, hD⟩
    · have hnx : (h.link pos).next = y := hcr.1
      have hys : y ≠ s := fun hh => hsr (by rw [← hh]; exact List.mem_cons_self y r')
      have hnd3 : (y :: r').Nodup := by
        have h1 : (pos :: y :: r').Nodup :=
          (List.nodup_append.mp (List.nodup_cons.mp hnd).2).2.1
        exact (List.nodup_cons.mp h1).2
      have hyr : y ∉ r' := (List.nodup_cons.mp hnd3).1
      rw [hpp, hnx] at hC hD
      have hgoal : (l' ++ [q]) ++ (y :: r') = l' ++ q :: (y :: r') := by simp
      rw [hgoal]
      apply chain_append H s q s l' (y :: r') hchainl
      refine ⟨hC, hD, ?_⟩
      apply chain_congr h H y s r' _ _ hcr.2.2
      · intro x hx
        refine hA x ?_
        rw [hpp]
        rcases List.mem_cons.mp hx with hxy | hxr
        · exact fun hh => hlr q hq_mem (by rw [← hh, hxy]; exact List.mem_cons_self _ _)
        · exact fun hh => hlr q hq_mem (by rw [← hh]; exact List.mem_cons_of_mem y hxr)
      · intro x hx
        refine hB x ?_
        rw [hnx]
        rcases List.mem_append.mp hx with hxr | hxs
        · exact fun hh => hyr (by rw [← hh]; exact hxr)
        · have hxs' : x = s := List.mem_singleton.mp hxs
          subst hxs'
          exact Ne.symm hys

/-- List::erase preserves I1–I3: the result is the ring without `pos`. -/
theorem erase_valid (h : Heap) (c : ListObj) (l r : List Nat) (pos : Nat)
    (hv : valid h c (l ++ pos :: r)) :
    valid (erase h c pos).heap (erase h c pos).obj (l ++ r) := by
  obtain ⟨hc, hnd, hsz⟩ := hv
  have heq := erase_heap_eq h c l r pos hc hnd
  refine ⟨?_, ?_, ?_⟩
  · apply ring_erase h (erase h c pos).heap c.sent pos l r hc hnd
    · intro x hx
      rw [heq]; simp [hx]
    · intro x hx
      rw [heq]; simp [hx]
    · rw [heq]; simp
    · rw [heq]; simp
  · have hsub : (l ++ r).Sublist (l ++ pos :: r) :=
      List.Sublist.append_left (List.sublist_cons_self pos r) l
    exact List.Nodup.sublist (List.Sublist.cons₂ c.sent hsub) hnd
  · have hsz' : (erase h c pos).obj.size = c.size - 1 := rfl
    rw [hsz', hsz]
    simp only [List.length_append, List.length_cons]
    omega

/-- Forward iteration visits exactly the chain's node sequence. -/
theorem fwdA_chain (h : Heap) (stop : Nat) :
    ∀ (xs : List Nat) (a : Nat), chain h a xs stop → stop ∉ xs →
      fwdA h xs.length ((h.link a).next) stop = xs := by
  intro xs
  induction xs with
  | nil => intro a _ _; rfl
  | cons x xs ih =>
      intro a hc hstop
      have hxs : x ≠ stop := fun hh => hstop (by rw [← hh]; exact List.mem_cons_self x xs)
      have hstop' : stop ∉ xs := fun hh => hstop (List.mem_cons_of_mem x hh)
      simp only [List.length_cons, fwdA]
      rw [hc.1, if_neg hxs, ih x hc.2.2 hstop']

/-- Backward iteration from the node before `b` visits the chain reversed. -/
theorem bwdA_chain (h : Heap) :
    ∀ (xs : List Nat) (a b : Nat), chain h a xs b → a ∉ xs →
      bwdA h xs.length ((h.link b).prev) a = xs.reverse := by
  intro xs
  induction xs using List.reverseRecOn with
  | nil =>
      intro a b hc _
      rfl
  | append_singleton xs y ih =>
      intro a b hc ha
      obtain ⟨hc1, hc2⟩ := chain_split h a y b xs [] hc
      have hya : y ≠ a := by
        intro hh
        exact ha (by rw [← hh]; exact List.mem_append_right xs (List.mem_singleton_self y))
      have ha' : a ∉ xs := fun hh => ha (List.mem_append_left [y] hh)
      simp only [List.length_append, List.length_singleton, bwdA]
      rw [hc2.2, if_neg hya, ih a y hc1 ha', List.reverse_append]
      rfl

/-- The value-comparison loop of operator== agrees with list equality of the
traversed values, given two chains of equal length. -/
theorem eqLoop_spec (h : Heap) (stop bstop : Nat) :
    ∀ (xs ys : List Nat) (a b : Nat), chain h a xs stop → chain h b ys bstop →
      xs.length = ys.length → stop ∉ xs →
      (eqLoop h stop xs.length ((h.link a).next) ((h.link b).next) = true ↔
        xs.map h.val = ys.map h.val) := by
  intro xs
  induction xs with
  | nil =>
      intro ys a b hca hcb hlen _
      cases ys with
      | nil => simp [eqLoop, hca.1]
      | cons y ys => simp at hlen
  | cons x xs ih =>
      intro ys a b hca hcb hlen hstop
      cases ys with
      | nil => simp at hlen
      | cons y ys =>
          have hxs : x ≠ stop := fun hh => hstop (by rw [← hh]; exact List.mem_cons_self x xs)
          have hstop' : stop ∉ xs := fun hh => hstop (List.mem_cons_of_mem x hh)
          have hlen' : xs.length = ys.length := by simpa using hlen
          simp only [List.length_cons, eqLoop]
          rw [hca.1, hcb.1, if_neg hxs]
          by_cases hv : h.val x = h.val y
          · rw [if_pos hv]
            rw [ih ys x y hca.2.2 hcb.2.2 hlen' hstop']
            simp [hv]
          · rw [if_neg hv]
            simp [hv]

theorem erase_split (pos : Nat) (l r : List Nat) (hpl : pos ∉ l) :
    (l ++ pos :: r).erase pos = l ++ r := by
  induction l with
  | nil => simp
  | cons x xs ih =>
      simp only [List.mem_cons, not_or] at hpl
      have hx : x ≠ pos := fun hh => hpl.1 hh.symm
      simp [List.erase_cons, hx, ih hpl.2]

/-- States reachable from a default-constructed list (sentinel self-linked,
size zero) by the insert and erase operations of list.hpp. -/
inductive Reachable : Heap → ListObj → List Nat → Prop where
  | base (h : Heap) (s : Nat) (hlink : h.link s = Header.mk s s) :
      Reachable h (ListObj.mk s 0) []
  | ins {h : Heap} {c : ListObj} {elems : List Nat} (pos : Nat) (v : Int) (nn : Nat)
      (hr : Reachable h c elems) (hpos : pos ∈ c.sent :: elems) (hnn : nn ∉ c.sent :: elems) :
      Reachable (insert h c pos v nn).heap (insert h c pos v nn).obj (insBefore nn pos elems)
  | ers {h : Heap} {c : ListObj} {elems : List Nat} (pos : Nat)
      (hr : Reachable h c elems) (hpos : pos ∈ elems) :
      Reachable (erase h c pos).heap (erase h c pos).obj (elems.erase pos)

/-- Every reachable state satisfies the invariants I1–I3. -/
theorem reachable_valid (h : Heap) (c : ListObj) (elems : List Nat)
    (hr : Reachable h c elems) : valid h c elems := by
  induction hr with
  | base h s hlink =>
      refine ⟨⟨?_, ?_⟩, List.nodup_singleton s, rfl⟩
      · rw [hlink]
      · rw [hlink]
  | ins pos v nn hr hpos hnn ih =>
      exact insert_valid _ _ _ pos v nn ih hpos hnn
  | ers pos hr hpos ih =>
      obtain ⟨l, r, rfl⟩ := List.append_of_mem hpos
      have hpl : pos ∉ l := (split_ring_facts _ pos l r ih.2.1).2.1
      rw [erase_split pos l r hpl]
      exact erase_valid _ _ l r pos ih

theorem header_eq (d : Header) (p n : Nat) (hp : d.prev = p) (hn : d.next = n) :
    d = Header.mk p n := by
  cases d
  simp_all

/-- Claim C3: for every list in a valid state, every position `pos` in its
ring (element or sentinel = end()) and every value `v`, insert(pos, v) with
a fresh node address `nn` splices exactly one new element holding `v`
immediately before `pos` (covering the `pos = begin` boundary case),
increments size by exactly 1, returns a position referring to the new
element, and the resulting valid ring is the old order with the new element
placed before `pos` (appended at the end when `pos = end`). -/
theorem insert_spec (h : Heap) (c : ListObj) (elems : List Nat) (pos : Nat) (v : Int) (nn : Nat)
    (hv : valid h c elems) (hpos : pos ∈ c.sent :: elems) (hnn : nn ∉ c.sent :: elems) :
    valid (insert h c pos v nn).heap (insert h c pos v nn).obj (insBefore nn pos elems) ∧
    (insert h c pos v nn).obj.size = c.size + 1 ∧
    (insert h c pos v nn).ret = nn ∧
    (insert h c pos v nn).heap.val nn = v ∧
    (∀ x, x ≠ nn → (insert h c pos v nn).heap.val x = h.val x) := by
  obtain ⟨hc, hnd, hsz⟩ := hv
  obtain ⟨_, _, _, _, _, hv1, hv2⟩ := insert_reads h c elems pos v nn hc hnd hpos hnn
  exact ⟨insert_valid h c elems pos v nn ⟨hc, hnd, hsz⟩ hpos hnn, rfl, rfl, hv1, hv2⟩

/-- A concrete two-element list (sentinel 0, nodes 1 and 2, values 10, 20)
used to instantiate the hypothesis-bearing theorems. -/
def wHeap : Heap :=
  Heap.mk
    (fun x => if x = 1 then Header.mk 0 2 else if x = 2 then Header.mk 1 0 else Header.mk 2 1)
    (fun x => Int.ofNat x * 10)

theorem wHeap_valid : valid wHeap (ListObj.mk 0 2) [1, 2] := by
  refine ⟨?_, by simp, rfl⟩
  simp [chain, wHeap]

theorem insert_spec_witness :
    valid (insert wHeap (ListObj.mk 0 2) 2 5 3).heap (insert wHeap (ListObj.mk 0 2) 2 5 3).obj
        (insBefore 3 2 [1, 2]) ∧
    (insert wHeap (ListObj.mk 0 2) 2 5 3).obj.size = (ListObj.mk 0 2).size + 1 ∧
    (insert wHeap (ListObj.mk 0 2) 2 5 3).ret = 3 ∧
    (insert wHeap (ListObj.mk 0 2) 2 5 3).heap.val 3 = 5 ∧
    (∀ x, x ≠ 3 → (insert wHeap (ListObj.mk 0 2) 2 5 3).heap.val x = wHeap.val x) :=
  insert_spec wHeap (ListObj.mk 0 2) [1, 2] 2 5 3 wHeap_valid (by simp) (by simp)

/-- Claim C4: for every valid list split as `l ++ pos :: r` (so `pos` is an
element, i.e. pos ≠ end), erase(pos) performs exactly the two-pointer unlink
connecting pos's neighbors to each other, leaves the valid ring `l ++ r`,
decrements size by exactly 1, returns the old successor (end when pos was
last), touches no stored value, and erasing the only element restores the
sentinel self-linked empty state of default construction. -/
theorem erase_spec (h : Heap) (c : ListObj) (l r : List Nat) (pos : Nat)
    (hv : valid h c (l ++ pos :: r)) :
    valid (erase h c pos).heap (erase h c pos).obj (l ++ r) ∧
    (erase h c pos).heap =
      (h.setNext ((h.link pos).prev) ((h.link pos).next)).setPrev
        ((h.link pos).next) ((h.link pos).prev) ∧
    (erase h c pos).obj.size + 1 = c.size ∧
    (erase h c pos).ret = r.headD c.sent ∧
    (erase h c pos).heap.val = h.val ∧
    (l = [] → r = [] →
      (erase h c pos).heap.link c.sent = Header.mk c.sent c.sent ∧
      (erase h c pos).obj.size = 0) := by
  obtain ⟨hc, hnd, hsz⟩ := hv
  have hval := erase_valid h c l r pos ⟨hc, hnd, hsz⟩
  obtain ⟨hcl, hcr⟩ := chain_split h c.sent pos c.sent l r hc
  have hvals : (erase h c pos).heap.val = h.val := by
    rw [erase_heap_eq h c l r pos hc hnd]
    rfl
  refine ⟨hval, erase_heap_eq h c l r pos hc hnd, ?_, ?_, hvals, ?_⟩
  · have h1 : (erase h c pos).obj.size = c.size - 1 := rfl
    have h2 : 1 ≤ c.size := by
      rw [hsz, List.length_append, List.length_cons]
      omega
    omega
  · have h1 : (erase h c pos).ret = (h.link pos).next := rfl
    rw [h1]
    cases r with
    | nil => exact hcr.1
    | cons y r' => exact hcr.1
  · intro hl hrr
    subst hl
    subst hrr
    obtain ⟨hchain, _, hsize⟩ := hval
    exact ⟨header_eq _ _ _ hchain.2 hchain.1, hsize⟩

theorem erase_spec_witness :
    valid (erase wHeap (ListObj.mk 0 2) 1).heap (erase wHeap (ListObj.mk 0 2) 1).obj ([] ++ [2]) ∧
    (erase wHeap (ListObj.mk 0 2) 1).heap =
      (wHeap.setNext ((wHeap.link 1).prev) ((wHeap.link 1).next)).setPrev
        ((wHeap.link 1).next) ((wHeap.link 1).prev) ∧
    (erase wHeap (ListObj.mk 0 2) 1).obj.size + 1 = (ListObj.mk 0 2).size ∧
    (erase wHeap (ListObj.mk 0 2) 1).ret = [2].headD 0 ∧
    (erase wHeap (ListObj.mk 0 2) 1).heap.val = wHeap.val ∧
    (([] : List Nat) = [] → [2] = ([] : List Nat) →
      (erase wHeap (ListObj.mk 0 2) 1).heap.link 0 = Header.mk 0 0 ∧
      (erase wHeap (ListObj.mk 0 2) 1).obj.size = 0) :=
  erase_spec wHeap (ListObj.mk 0 2) [] [2] 1 wHeap_valid

/-- Claim C5: when the single allocation of insert fails (the `new` throws
before any pointer assignment), the failure is reported to the caller and
heap, object state and invariants are exactly as before, so the operation
can be retried. -/
theorem insert_alloc_failure_spec (h : Heap) (c : ListObj) (elems : List Nat)
    (pos : Nat) (v : Int) (hv : valid h c elems) :
    insertTry h c pos v none = (h, c, none) ∧
    valid (insertTry h c pos v none).1 (insertTry h c pos v none).2.1 elems :=
  ⟨rfl, hv⟩

theorem insert_alloc_failure_witness :
    insertTry wHeap (ListObj.mk 0 2) 2 5 none = (wHeap, ListObj.mk 0 2, none) ∧
    valid (insertTry wHeap (ListObj.mk 0 2) 2 5 none).1
      (insertTry wHeap (ListObj.mk 0 2) 2 5 none).2.1 [1, 2] :=
  insert_alloc_failure_spec wHeap (ListObj.mk 0 2) [1, 2] 2 5 wHeap_valid

/-- Claim C6: operator==(a, b) returns true iff the sizes are equal and the
forward-traversal value sequences are pairwise equal in order; on a size
mismatch it returns false immediately, before any value comparison. -/
theorem list_eq_spec (h : Heap) (a b : ListObj) (ea eb : List Nat)
    (hva : valid h a ea) (hvb : valid h b eb) :
    (listEq h a b = true ↔ a.size = b.size ∧ ea.map h.val = eb.map h.val) ∧
    (a.size ≠ b.size → listEq h a b = false) := by
  obtain ⟨hca, hnda, hsza⟩ := hva
  obtain ⟨hcb, hndb, hszb⟩ := hvb
  constructor
  · by_cases hs : a.size = b.size
    · unfold listEq
      rw [if_neg (by simp [hs])]
      have hlen : ea.length = eb.length := by rw [← hsza, ← hszb, hs]
      have hse : a.sent ∉ ea := (List.nodup_cons.mp hnda).1
      have hiff := eqLoop_spec h a.sent b.sent ea eb a.sent b.sent hca hcb hlen hse
      rw [← hsza] at hiff
      rw [hiff]
      simp [hs]
    · unfold listEq
      rw [if_pos hs]
      simp [hs]
  · intro hs
    unfold listEq
    rw [if_pos hs]

/-- A second list (sentinel 10, nodes 11 and 12) living in the same heap as
the `wHeap2` copy of the 0-sentinel list, with equal values. -/
def wHeap2 : Heap :=
  Heap.mk
    (fun x =>
      if x = 0 then Header.mk 2 1 else if x = 1 then Header.mk 0 2
      else if x = 2 then Header.mk 1 0 else if x = 10 then Header.mk 12 11
      else if x = 11 then Header.mk 10 12 else Header.mk 11 10)
    (fun x => if x = 1 then 7 else if x = 2 then 8 else if x = 11 then 7 else 8)

theorem wHeap2_valid_a : valid wHeap2 (ListObj.mk 0 2) [1, 2] := by
  refine ⟨?_, by simp, rfl⟩
  simp [chain, wHeap2]

theorem wHeap2_valid_b : valid wHeap2 (ListObj.mk 10 2) [11, 12] := by
  refine ⟨?_, by simp, rfl⟩
  simp [chain, wHeap2]

theorem list_eq_spec_witness :
    (listEq wHeap2 (ListObj.mk 0 2) (ListObj.mk 10 2) = true ↔
      (ListObj.mk 0 2).size = (ListObj.mk 10 2).size ∧
        [1, 2].map wHeap2.val = [11, 12].map wHeap2.val) ∧
    ((ListObj.mk 0 2).size ≠ (ListObj.mk 10 2).size →
      listEq wHeap2 (ListObj.mk 0 2) (ListObj.mk 10 2) = false) :=
  list_eq_spec wHeap2 (ListObj.mk 0 2) (ListObj.mk 10 2) [1, 2] [11, 12]
    wHeap2_valid_a wHeap2_valid_b

/-- Claim C7: on every list reachable from the empty list by insert and
erase operations, forward traversal from begin() to end() visits the same
values that backward traversal from --end() down to begin() (inclusive)
visits, in exactly reversed order; in particular --end(), i.e. the
sentinel's prev link, refers to the last element whenever the list is
non-empty. -/
theorem traversal_reversal_spec (h : Heap) (c : ListObj) (elems : List Nat)
    (hr : Reachable h c elems) :
    fwdVals h c = (bwdVals h c).reverse ∧
    (∀ e q, elems = e ++ [q] → (h.link c.sent).prev = q) := by
  obtain ⟨hc, hnd, hsz⟩ := reachable_valid h c elems hr
  have hse : c.sent ∉ elems := (List.nodup_cons.mp hnd).1
  have hfwd : fwdVals h c = elems.map h.val := by
    unfold fwdVals
    rw [hsz, fwdA_chain h c.sent elems c.sent hc hse]
  have hbwd : bwdVals h c = (elems.map h.val).reverse := by
    unfold bwdVals
    rw [hsz, bwdA_chain h elems c.sent c.sent hc hse, List.map_reverse]
  refine ⟨?_, ?_⟩
  · rw [hfwd, hbwd, List.reverse_reverse]
  · intro e q he
    subst he
    exact (chain_split h c.sent q c.sent e [] hc).2.2

/-- The empty starting heap for the reachability witness: every header is
self-linked, in particular the sentinel at address 0. -/
def rHeap : Heap := Heap.mk (fun x => Header.mk x x) (fun _ => 0)

/-- push_back 10 then push_back 20 (both inserts at end(), fresh nodes 1, 2). -/
def rStep1 : MRes := insert rHeap (ListObj.mk 0 0) 0 10 1

def rStep2 : MRes := insert rStep1.heap rStep1.obj 0 20 2

theorem traversal_reversal_witness :
    fwdVals rStep2.heap rStep2.obj = [10, 20] ∧
    (fwdVals rStep2.heap rStep2.obj = (bwdVals rStep2.heap rStep2.obj).reverse ∧
      (∀ e q, insBefore 2 0 (insBefore 1 0 []) = e ++ [q] →
        (rStep2.heap.link rStep2.obj.sent).prev = q)) :=
  ⟨by decide,
    traversal_reversal_spec rStep2.heap rStep2.obj (insBefore 2 0 (insBefore 1 0 []))
      (Reachable.ins 0 20 2
        (Reachable.ins 0 10 1 (Reachable.base rHeap 0 rfl) (by decide) (by decide))
        (by decide) (by decide))⟩

/-- Claim C8: copy-assigning a list to itself (a = a) first clears the
target and then copies from the now-empty source, so afterwards the list is
empty: size() == 0 and begin() == end() (the sentinel links to itself),
i.e. the original contents are lost, not retained. -/
theorem self_copy_assign_spec (h : Heap) (c : ListObj) (allocs : List Nat) (fuel : Nat) :
    (copyAssignSelf h c allocs fuel).2.size = 0 ∧
    (copyAssignSelf h c allocs fuel).2.sent = c.sent ∧
    ((copyAssignSelf h c allocs fuel).1.link c.sent).next = c.sent ∧
    ((copyAssignSelf h c allocs fuel).1.link c.sent).prev = c.sent ∧
    valid (copyAssignSelf h c allocs fuel).1 (copyAssignSelf h c allocs fuel).2 [] := by
  cases fuel with
  | zero => exact ⟨rfl, rfl, by simp [copyAssignSelf, copyLoopSelf, clear],
      by simp [copyAssignSelf, copyLoopSelf, clear],
      ⟨by simp [copyAssignSelf, copyLoopSelf, clear, chain], by simp, rfl⟩⟩
  | succ f =>
      have hcur : ((clear h c).1.link (clear h c).2.sent).next = (clear h c).2.sent := by
        simp [clear]
      refine ⟨?_, ?_, ?_, ?_, ⟨?_, by simp, ?_⟩⟩ <;>
        simp [copyAssignSelf, copyLoopSelf, clear, chain]

/-- Claim C9: move-assigning a list to itself (a = std::move(a)) clears the
elements and leaves the object in the valid empty state: size() == 0 with
the sentinel self-linked in both directions.  The resulting configuration is
exactly a Reachable base state, i.e. indistinguishable from a
default-constructed list for every subsequent operation. -/
theorem self_move_assign_spec (h : Heap) (c : ListObj) :
    (moveAssignSelf h c).2.size = 0 ∧
    (moveAssignSelf h c).2.sent = c.sent ∧
    (moveAssignSelf h c).1.link c.sent = Header.mk c.sent c.sent ∧
    valid (moveAssignSelf h c).1 (moveAssignSelf h c).2 [] ∧
    Reachable (moveAssignSelf h c).1 (moveAssignSelf h c).2 [] := by
  have hlink : (moveAssignSelf h c).1.link c.sent = Header.mk c.sent c.sent := by
    simp [moveAssignSelf, clear]
  have hchain : chain (moveAssignSelf h c).1 c.sent [] c.sent := by
    simp only [chain_nil]
    rw [hlink]
    exact ⟨rfl, rfl⟩
  exact ⟨rfl, rfl, hlink, ⟨hchain, by simp, rfl⟩,
    Reachable.base (moveAssignSelf h c).1 c.sent hlink⟩

/-- Claim C10: the range erasure erase(p, p) over the empty half-open range
runs zero loop iterations: it erases nothing, leaves heap, size and all
links exactly unchanged, and returns a position equal to p. -/
theorem erase_empty_range_spec (h : Heap) (c : ListObj) (fuel p : Nat) :
    eraseRange fuel h c p p = (h, c, p) := by
  cases fuel with
  | zero => rfl
  | succ f => simp [eraseRange]

/-- Two singleton lists sharing one heap: a = [1] with sentinel 0 and
node 1, b = [2] with sentinel 10 and node 11. -/
def swapDemoHeap : Heap :=
  Heap.mk
    (fun x =>
      if x = 0 then Header.mk 1 1 else if x = 1 then Header.mk 0 0
      else if x = 10 then Header.mk 11 11 else if x = 11 then Header.mk 10 10
      else Header.mk x x)
    (fun x => if x = 1 then 1 else if x = 11 then 2 else 0)

/-- Claim C1 fails on the code: List::swap re-points only the last element's
`next` link (tail()->next = &end_node()) and never the first element's
`prev` link, so after swap(a, b) on the two valid singleton lists of
`swapDemoHeap` the sole element of each ring still has `prev` pointing at
the OTHER container's sentinel and invariant I2 (H.prev.next == H) is
violated at both ring heads.  The second half of the claim does hold:
swapping twice restores both containers exactly. -/
theorem swap_breaks_ring_invariant :
    valid swapDemoHeap (ListObj.mk 0 1) [1] ∧
    valid swapDemoHeap (ListObj.mk 10 1) [11] ∧
    ((swap swapDemoHeap (ListObj.mk 0 1) (ListObj.mk 10 1)).1.link 0).next = 11 ∧
    ((swap swapDemoHeap (ListObj.mk 0 1) (ListObj.mk 10 1)).1.link 11).prev = 10 ∧
    ¬ I2at (swap swapDemoHeap (ListObj.mk 0 1) (ListObj.mk 10 1)).1 11 ∧
    ¬ I2at (swap swapDemoHeap (ListObj.mk 0 1) (ListObj.mk 10 1)).1 1 ∧
    (let r1 := swap swapDemoHeap (ListObj.mk 0 1) (ListObj.mk 10 1)
     let r2 := swap r1.1 r1.2.1 r1.2.2
     r2.1.link 0 = swapDemoHeap.link 0 ∧ r2.1.link 1 = swapDemoHeap.link 1 ∧
     r2.1.link 10 = swapDemoHeap.link 10 ∧ r2.1.link 11 = swapDemoHeap.link 11 ∧
     r2.2.1 = ListObj.mk 0 1 ∧ r2.2.2 = ListObj.mk 10 1) := by
  refine ⟨⟨?_, by simp, rfl⟩, ⟨?_, by simp, rfl⟩, ?_⟩
  · simp [chain, swapDemoHeap]
  · simp [chain, swapDemoHeap]
  · decide

/-- A singleton source list (sentinel 0, node 1 with value 7) plus an empty
destination list (sentinel 20) in one heap. -/
def moveDemoHeap : Heap :=
  Heap.mk
    (fun x =>
      if x = 0 then Header.mk 1 1 else if x = 1 then Header.mk 0 0
      else if x = 20 then Header.mk 20 20 else Header.mk x x)
    (fun x => if x = 1 then 7 else 0)

/-- Claim C2 fails on the code: both the move constructor and move
assignment fix up only the last element's `next` link, never the first
element's `prev` link.  Moving the valid singleton list [7] of
`moveDemoHeap` transfers the ring (forward traversal of the destination
yields [7]) and correctly resets the source to the empty self-linked state,
but the transferred element's `prev` still points at the source's old
sentinel (address 0), not at the destination's sentinel, so I2 fails at the
destination's head and the destination is not a valid ring. -/
theorem move_breaks_ring_invariant :
    valid moveDemoHeap (ListObj.mk 0 1) [1] ∧
    valid moveDemoHeap (ListObj.mk 20 0) [] ∧
    (let r := moveCtor moveDemoHeap (ListObj.mk 0 1) 10
     fwdVals r.1 r.2.1 = [7] ∧
     r.1.link 0 = Header.mk 0 0 ∧ r.2.2 = ListObj.mk 0 0 ∧
     (r.1.link 1).prev = 0 ∧ (r.1.link 10).next = 1 ∧ ¬ I2at r.1 1) ∧
    (let r := moveAssign moveDemoHeap (ListObj.mk 20 0) (ListObj.mk 0 1)
     fwdVals r.1 r.2.1 = [7] ∧
     r.1.link 0 = Header.mk 0 0 ∧ r.2.2 = ListObj.mk 0 0 ∧
     (r.1.link 1).prev = 0 ∧ (r.1.link 20).next = 1 ∧ ¬ I2at r.1 1) := by
  refine ⟨⟨?_, by simp, rfl⟩, ⟨?_, by simp, rfl⟩, ?_⟩
  · simp [chain, moveDemoHeap]
  · simp [chain, moveDemoHeap]
  · decide

end CppList
